import Mathlib

/-!
Verification of the gradient-reducer framework of
`GNMT/seq2seq/train/gradient_reducers.py`.

Tensors are embedded as lists of exact rationals (a flat tensor is a
`List ℚ`, a 2-D tensor a `List (List ℚ)` of rows); the torch collective
operations are modelled by their documented semantics (element-wise sum
across the workers' buffers, identity when only one worker participates).
-/

namespace SparseSketch

/-- `torch.sign` on one scalar: `1` for positive, `-1` for negative, `0` for zero. -/
def signQ (x : ℚ) : ℚ := if 0 < x then 1 else if x < 0 then -1 else 0

theorem signQ_of_ne (x : ℚ) (hx : x ≠ 0) : signQ x = 1 ∨ signQ x = -1 := by
  rcases lt_trichotomy x 0 with h | h | h
  · right; simp [signQ, h, not_lt.mpr h.le]
  · exact absurd h hx
  · left; simp [signQ, h]

/-- `n_bits(tensor) = 8 * tensor.nelement() * tensor.element_size()`. -/
def nBits (nelement elementSize : ℕ) : ℕ := 8 * nelement * elementSize

/-! ### `TensorBuffer` (flat buffer packer) -/

/-- The `(start, end)` offset pairs of `TensorBuffer.__init__`, accumulated from
`tensor.nelement()` alone. -/
def tbIdxAux : ℕ → List ℕ → List (ℕ × ℕ)
  | _, [] => []
  | s, l :: ls => (s, s + l) :: tbIdxAux (s + l) ls

/-- A packed flat buffer: the element counts of the packed tensors together with
the concatenated flat contents. -/
structure TensorBuffer where
  lens : List ℕ
  buffer : List ℚ
  deriving DecidableEq, Repr

/-- `TensorBuffer.__init__`: record each tensor's element count and concatenate the
flattened views into one fresh buffer (`torch.cat` copies). -/
def TensorBuffer.pack (tensors : List (List ℚ)) : TensorBuffer :=
  ⟨tensors.map List.length, tensors.flatten⟩

/-- Walk the buffer segment by segment, `self._start_idx[i] .. self._end_idx[i]`
holding exactly `lens[i]` elements. -/
def tbUnpackAux : List ℕ → List ℚ → List (List ℚ)
  | [], _ => []
  | l :: ls, buf => buf.take l :: tbUnpackAux ls (buf.drop l)

/-- `TensorBuffer.unpack`: copy each packed segment back into destination tensors of
the original element counts. -/
def TensorBuffer.unpack (tb : TensorBuffer) : List (List ℚ) := tbUnpackAux tb.lens tb.buffer

/-- `TensorBuffer.bits() = 8 * nelement() * element_size()`. -/
def TensorBuffer.bits (tb : TensorBuffer) (elementSize : ℕ) : ℕ :=
  8 * tb.buffer.length * elementSize

/-- Unpacking a mapped concatenation recovers the mapped source tensors. -/
theorem tbUnpackAux_flatten_map (f : ℚ → ℚ) :
    ∀ ts : List (List ℚ),
      tbUnpackAux (ts.map List.length) (ts.flatten.map f) = ts.map (List.map f)
  | [] => rfl
  | t :: ts => by
    simp only [List.map_cons, List.flatten_cons, List.map_append, tbUnpackAux]
    have ht : (t.map f).length = t.length := by simp
    rw [← ht, List.take_left, List.drop_left, tbUnpackAux_flatten_map f ts]

theorem tbUnpackAux_flatten (ts : List (List ℚ)) :
    tbUnpackAux (ts.map List.length) ts.flatten = ts := by
  have h := tbUnpackAux_flatten_map id ts
  simpa using h

/-- Claim C7: packing a non-empty list of tensors yields a flat buffer whose element
count equals the sum of the input tensors' element counts, the recorded offsets are
determined by each tensor's `nelement()` alone, and unpacking restores every source
tensor's values exactly. -/
theorem claim7_pack_unpack (ts : List (List ℚ)) (h : ts ≠ []) :
    (TensorBuffer.pack ts).buffer.length = (ts.map List.length).sum ∧
    (TensorBuffer.pack ts).unpack = ts ∧
    (TensorBuffer.pack ts).lens = ts.map List.length := by
  refine ⟨?_, ?_, rfl⟩
  · simp [TensorBuffer.pack]
  · exact tbUnpackAux_flatten ts

/-- Witness for C7 at a concrete two-tensor input. -/
theorem claim7_pack_unpack_witness :
    ([[(1 : ℚ), 2], [3]] ≠ ([] : List (List ℚ))) ∧
    (TensorBuffer.pack [[(1 : ℚ), 2], [3]]).buffer.length =
      (([[(1 : ℚ), 2], [3]]).map List.length).sum ∧
    (TensorBuffer.pack [[(1 : ℚ), 2], [3]]).unpack = [[(1 : ℚ), 2], [3]] ∧
    (TensorBuffer.pack [[(1 : ℚ), 2], [3]]).lens = ([[(1 : ℚ), 2], [3]]).map List.length :=
  ⟨by decide, claim7_pack_unpack [[(1 : ℚ), 2], [3]] (by decide)⟩

/-! ### `SignCompressor` (bit-level sign codec) -/

/-- Modelled from the spec: the external `bit2byte.packing` primitive, absent from the
repository, packs one bucket bit per sign value into a 32-bit word; the `+1` bucket is
bit `1`, the `-1`/`0` bucket bit `0`. -/
def packWord (bs : List Bool) : ℕ :=
  bs.foldr (fun b acc => (if b then 1 else 0) + 2 * acc) 0

/-- Modelled from the spec: the external `bit2byte.unpacking` primitive, the exact
inverse of `packWord`, reading the low `k` bits of a word. -/
def unpackWord : ℕ → ℕ → List Bool
  | 0, _ => []
  | k + 1, n => decide (n % 2 = 1) :: unpackWord k (n / 2)

theorem unpackWord_packWord : ∀ bs : List Bool, unpackWord bs.length (packWord bs) = bs
  | [] => rfl
  | b :: bs => by
    have hp : packWord (b :: bs) = (if b then 1 else 0) + 2 * packWord bs := rfl
    have h1 : packWord (b :: bs) % 2 = if b then 1 else 0 := by
      rw [hp]; cases b <;> simp <;> omega
    have h2 : packWord (b :: bs) / 2 = packWord bs := by
      rw [hp]; cases b <;> simp <;> omega
    show decide (packWord (b :: bs) % 2 = 1) :: unpackWord bs.length (packWord (b :: bs) / 2) =
      b :: bs
    rw [h1, h2, unpackWord_packWord bs]
    cases b <;> simp

/-- Bucket bit of a sign value: `+1` maps to the `true` bucket, `0` and `-1` to `false`. -/
def signBit (s : ℚ) : Bool := s = 1

/-- Padding length of `SignCompressor.packing`: `32 - (src_len % 32)` if `src_len` is
not a multiple of 32, else `0`. -/
def padLen (srcLen : ℕ) : ℕ := (32 - srcLen % 32) % 32

/-- Number of 32-bit words (columns of the `(32, -1)` view). -/
def wordCount (srcLen : ℕ) : ℕ := (srcLen + padLen srcLen) / 32

/-- The padded sign vector of `SignCompressor.packing`: `torch.sign` of the flattened
input followed by the zero padding. -/
def paddedSigns (xs : List ℚ) : List ℚ :=
  xs.map signQ ++ List.replicate (padLen xs.length) 0

/-- `SignCompressor.packing`, word level: the padded sign vector is viewed as 32 rows of
`wordCount` columns (row-major), and column `j` is packed into one 32-bit word whose bit
`i` is the bucket of element `i * wordCount + j`. -/
def compressWords (xs : List ℚ) : List ℕ :=
  let k := wordCount xs.length
  (List.range k).map fun j =>
    packWord ((List.range 32).map fun i => signBit ((paddedSigns xs).getD (i * k + j) 0))

/-- `SignCompressor.compress`: the packed words together with the original element
count (the saved `src_tensor_size`). -/
def compress (xs : List ℚ) : List ℕ × ℕ := (compressWords xs, xs.length)

/-- `SignCompressor.uncompress`: unpack the bits, strip the padding and map each bucket
back to a sign value in `{-1, +1}`. -/
def uncompress (words : List ℕ) (srcLen : ℕ) : List ℚ :=
  let k := wordCount srcLen
  (List.range srcLen).map fun m =>
    if (unpackWord 32 (words.getD (m % k) 0)).getD (m / k) false then (1 : ℚ) else -1

theorem padLen_spec (srcLen : ℕ) : (srcLen + padLen srcLen) % 32 = 0 := by
  unfold padLen
  omega

theorem wordCount_spec (srcLen : ℕ) : srcLen + padLen srcLen = 32 * wordCount srcLen := by
  have h := padLen_spec srcLen
  unfold wordCount
  omega

/-- Round-trip helper: uncompressing the packed words of a zero-free tensor recovers
its element-wise sign. -/
theorem uncompress_compressWords (xs : List ℚ) (hx : ∀ x ∈ xs, x ≠ 0) :
    uncompress (compressWords xs) xs.length = xs.map signQ := by
  have hk : xs.length ≤ 32 * wordCount xs.length := by
    have := wordCount_spec xs.length
    omega
  apply List.ext_getElem
  · simp [uncompress, compress]
  intro m hm hm'
  have hmn : m < xs.length := by
    simpa [uncompress, compress] using hm
  have hkpos : 0 < wordCount xs.length := by
    rcases Nat.eq_zero_or_pos (wordCount xs.length) with h0 | h
    · omega
    · exact h
  have hdiv : m / wordCount xs.length < 32 :=
    Nat.div_lt_of_lt_mul (by omega)
  have hmod : m % wordCount xs.length < wordCount xs.length := Nat.mod_lt _ hkpos
  simp only [uncompress, compress, List.getElem_map, List.getElem_range]
  rw [List.getD_eq_getElem _ 0 (by simpa [compressWords] using hmod)]
  simp only [compressWords, List.getElem_map, List.getElem_range]
  set bs := (List.range 32).map
      (fun i => signBit ((paddedSigns xs).getD (i * wordCount xs.length + m % wordCount xs.length) 0))
    with hbs
  rw [show (32 : ℕ) = bs.length by simp [hbs], unpackWord_packWord]
  rw [List.getD_eq_getElem _ false (by simp [hbs, hdiv])]
  simp only [hbs, List.getElem_map, List.getElem_range]
  have hidx : m / wordCount xs.length * wordCount xs.length + m % wordCount xs.length = m := by
    rw [Nat.mul_comm]
    exact Nat.div_add_mod m _
  rw [hidx]
  have hpad : (paddedSigns xs).getD m 0 = signQ xs[m] := by
    unfold paddedSigns
    rw [List.getD_append _ _ _ _ (by simpa using hmn)]
    rw [List.getD_eq_getElem _ 0 (by simpa using hmn)]
    simp
  rw [hpad]
  rcases signQ_of_ne _ (hx _ (List.getElem_mem hmn)) with h1 | h1
  · simp [h1, signBit]
  · rw [h1]
    norm_num [signBit]

/-- Claim C2 (amended): `uncompress(compress(x)) == sign(x)` element-wise for every
dense tensor with no zero element, for any element count (divisible by 32 or not);
a zero element instead comes back as the `-1` bucket value of the bit codec. -/
theorem claim2_sign_roundtrip (xs : List ℚ) (hx : ∀ x ∈ xs, x ≠ 0) :
    uncompress (compress xs).1 (compress xs).2 = xs.map signQ :=
  uncompress_compressWords xs hx

/-- Witness for C2's amended round trip at a concrete mixed-sign tensor of 3 elements
(not a multiple of 32). -/
theorem claim2_sign_roundtrip_witness :
    (∀ x ∈ [(5 : ℚ), -3, 2], x ≠ 0) ∧
    uncompress (compress [(5 : ℚ), -3, 2]).1 (compress [(5 : ℚ), -3, 2]).2 =
      [(5 : ℚ), -3, 2].map signQ :=
  ⟨by decide, claim2_sign_roundtrip [(5 : ℚ), -3, 2] (by decide)⟩

/-- Counterexample to C2 as stated: a tensor holding a zero does not round-trip to its
sign, because the bit codec has only two buckets and `torch.sign 0 = 0` is neither. -/
theorem claim2_counterexample :
    uncompress (compress [(0 : ℚ)]).1 (compress [(0 : ℚ)]).2 = [(-1 : ℚ)] ∧
    [(-1 : ℚ)] ≠ ([(0 : ℚ)]).map signQ := by
  constructor
  · decide
  · decide

/-! ### Reducers: common output and the exact / sign reducers -/

/-- The observable result of one `reduce(grad_in, grad_out, memory_out)` call:
the written `grad_out` and `memory_out` values and the returned bit count. -/
structure ReduceOut where
  gradOut : List (List ℚ)
  memoryOut : List (List ℚ)
  bits : ℕ
  deriving DecidableEq, Repr

/-- Element-wise sum of the workers' flat buffers: the semantics of `all_reduce` on a
packed buffer (each worker contributes its local buffer; world size 1 is the identity). -/
def sumBuffers (bufs : List (List ℚ)) : List ℚ :=
  match bufs with
  | [] => []
  | b :: bs => bs.foldl (fun acc c => acc.zipWith (· + ·) c) b

/-- `reduce_mean_list`: with one worker, copy `list_in` into `list_out` and return 0
bits; otherwise pack into a `TensorBuffer`, all-reduce (sum across workers), divide by
`n_workers`, unpack, and return the buffer's bit size (float32: 4 bytes / element).
The argument is the list of all workers' input lists; its length is `n_workers`. -/
def reduceMeanList (workers : List (List (List ℚ))) : List (List ℚ) × ℕ :=
  let n := workers.length
  let own := workers.headD []
  if n = 1 then (own, 0)
  else
    let total := sumBuffers (workers.map fun gs => (TensorBuffer.pack gs).buffer)
    let avg := total.map (· / (n : ℚ))
    (tbUnpackAux (own.map List.length) avg, TensorBuffer.bits ⟨own.map List.length, avg⟩ 4)

/-- `ExactReducer.reduce`: zero every memory tensor, then `reduce_mean_list` into
`grad_out`. -/
def exactReduce (workers : List (List (List ℚ))) (memOut : List (List ℚ)) : ReduceOut :=
  let r := reduceMeanList workers
  ⟨r.1, memOut.map (fun t => t.map fun _ => (0 : ℚ)), r.2⟩

/-- `SignReducer.reduce` on the `n_workers == 1` path: pack `grad_in` into one flat
vector, sign-compress it, skip the gather (`bits = [my_bits]`), decompress, average the
single sign tensor (`sum / 1`), and unpack into `grad_out`; `memory_out` receives
`tensor` then `add_(tensor.sign())`; `n_bits(my_bits)` is returned although nothing was
placed on the wire (int32 words: 4 bytes each). -/
def signReduceSingle (grads : List (List ℚ)) : ReduceOut :=
  let flat := (TensorBuffer.pack grads).buffer
  let words := compressWords flat
  let avg := (uncompress words flat.length).map (· / (1 : ℚ))
  ⟨tbUnpackAux (grads.map List.length) avg,
   grads.map (fun t => t.map fun x => x + signQ x),
   nBits words.length 4⟩

/-- Claim C1 (amended): with `n_workers == 1` no collective is invoked; the exact
reducer leaves `grad_out = grad_in` with zero memory and 0 bits, while a lossy reducer
writes its own decompressed local approximation — `SignReducer` leaves
`grad_out = sign(grad_in)` (shown for tensors with no zero entry), not `grad_in`. -/
theorem claim1_single_worker (grads memOut : List (List ℚ))
    (hx : ∀ x ∈ grads.flatten, x ≠ 0) :
    (exactReduce [grads] memOut).gradOut = grads ∧
    (exactReduce [grads] memOut).memoryOut = memOut.map (fun t => t.map fun _ => (0 : ℚ)) ∧
    (exactReduce [grads] memOut).bits = 0 ∧
    (signReduceSingle grads).gradOut = grads.map (List.map signQ) := by
  refine ⟨rfl, rfl, rfl, ?_⟩
  show tbUnpackAux (grads.map List.length)
      ((uncompress (compressWords (TensorBuffer.pack grads).buffer)
        (TensorBuffer.pack grads).buffer.length).map (· / (1 : ℚ))) = grads.map (List.map signQ)
  rw [show (TensorBuffer.pack grads).buffer = grads.flatten from rfl,
    uncompress_compressWords grads.flatten hx]
  simp only [div_one, List.map_id']
  exact tbUnpackAux_flatten_map signQ grads

/-- Witness for C1 at a concrete one-tensor, zero-free input. -/
theorem claim1_single_worker_witness :
    (∀ x ∈ ([[(2 : ℚ), -3]] : List (List ℚ)).flatten, x ≠ 0) ∧
    ((exactReduce [[[(2 : ℚ), -3]]] [[(7 : ℚ), 7]]).gradOut = [[(2 : ℚ), -3]] ∧
     (exactReduce [[[(2 : ℚ), -3]]] [[(7 : ℚ), 7]]).memoryOut =
       ([[(7 : ℚ), 7]] : List (List ℚ)).map (fun t => t.map fun _ => (0 : ℚ)) ∧
     (exactReduce [[[(2 : ℚ), -3]]] [[(7 : ℚ), 7]]).bits = 0 ∧
     (signReduceSingle [[(2 : ℚ), -3]]).gradOut =
       ([[(2 : ℚ), -3]] : List (List ℚ)).map (List.map signQ)) :=
  ⟨by decide, claim1_single_worker [[(2 : ℚ), -3]] [[(7 : ℚ), 7]] (by decide)⟩

/-- Counterexample to C1 as stated: with one worker `SignReducer` leaves `grad_out`
equal to the sign of the gradient, not the gradient: on `grad_in = [[2]]` it writes
`[[1]] ≠ [[2]]`. -/
theorem claim1_counterexample :
    (signReduceSingle [[(2 : ℚ)]]).gradOut = [[(1 : ℚ)]] ∧
    [[(1 : ℚ)]] ≠ [[(2 : ℚ)]] := by
  constructor
  · show tbUnpackAux ([[(2 : ℚ)]].map List.length)
      ((uncompress (compressWords (TensorBuffer.pack [[(2 : ℚ)]]).buffer)
        (TensorBuffer.pack [[(2 : ℚ)]]).buffer.length).map (· / (1 : ℚ))) = [[(1 : ℚ)]]
    rw [show uncompress (compressWords (TensorBuffer.pack [[(2 : ℚ)]]).buffer)
        (TensorBuffer.pack [[(2 : ℚ)]]).buffer.length = [1] from by decide]
    norm_num [tbUnpackAux]
  · decide

/-- Claim C6 evaluated at the failing input: `SignReducer.reduce` writes
`memory_out = grad_in + sign(grad_in)` (the code's `mem.data.add_(tensor.sign())`, its
own comment asking `should be add_(tensor.sign(), -1)?`), not the documented residual
`grad_in - sign(grad_in)`: at `grad_in = [[2]]` the code produces `[[3]]` while the
claimed residual is `[[1]]`. -/
theorem claim6_memory_behavior :
    (signReduceSingle [[(2 : ℚ)]]).memoryOut = [[(3 : ℚ)]] ∧
    [[(2 : ℚ) - signQ 2]] = [[(1 : ℚ)]] ∧
    [[(3 : ℚ)]] ≠ [[(1 : ℚ)]] := by
  refine ⟨?_, ?_, by decide⟩
  · show [[(2 : ℚ)]].map (fun t => t.map fun x => x + signQ x) = [[(3 : ℚ)]]
    norm_num [signQ]
  · norm_num [signQ]

/-! ### `TopKReducer` -/

/-- `top_size = max(1, int(0.5 * compression * tensor.nelement()))`; Python `int`
truncates toward zero, and the `max 1` absorbs the negative range exactly as in the
source, so `Int.toNat ∘ Int.floor` is an exact translation under the `max`. -/
def topSize (compression : ℚ) (nelement : ℕ) : ℕ :=
  max 1 (Int.toNat ⌊(1 / 2 : ℚ) * compression * (nelement : ℚ)⌋)

/-- Deterministic selection order modelling `torch.topk(tensor.view(-1).abs(), k)`:
positions ordered by decreasing absolute value, ties broken by position (torch leaves
the tie order to the underlying selection algorithm). -/
def topRel (xs : List ℚ) (i j : ℕ) : Prop :=
  |xs.getD j 0| < |xs.getD i 0| ∨ (|xs.getD i 0| = |xs.getD j 0| ∧ i ≤ j)

instance topRelDecidable (xs : List ℚ) : DecidableRel (topRel xs) := fun i j => by
  unfold topRel
  infer_instance

theorem topRel_total (xs : List ℚ) : ∀ i j, topRel xs i j ∨ topRel xs j i := by
  intro i j
  rcases lt_trichotomy (|xs.getD i 0|) (|xs.getD j 0|) with h | h | h
  · right; left; exact h
  · rcases Nat.le_total i j with hij | hij
    · left; right; exact ⟨h, hij⟩
    · right; right; exact ⟨h.symm, hij⟩
  · left; left; exact h

theorem topRel_trans (xs : List ℚ) :
    ∀ i j l, topRel xs i j → topRel xs j l → topRel xs i l := by
  intro i j l hij hjl
  rcases hij with h1 | ⟨h1, h1'⟩ <;> rcases hjl with h2 | ⟨h2, h2'⟩
  · left; exact h2.trans h1
  · left; exact lt_of_le_of_lt h2.symm.le h1
  · left; exact lt_of_lt_of_le h2 h1.ge
  · right; exact ⟨h1.trans h2, h1'.trans h2'⟩

/-- The `top_size` positions returned by `torch.topk` in the modelled selection
order. -/
def topkPositions (xs : List ℚ) (k : ℕ) : List ℕ :=
  (List.insertionSort (topRel xs) (List.range xs.length)).take k

/-- In-place scatter write `mem.view(-1)[positions] = v`, one position at a time. -/
def scatterSet : List ℚ → List ℕ → ℚ → List ℚ
  | l, [], _ => l
  | l, p :: ps, v => scatterSet (l.set p v) ps v

/-- In-place scatter accumulate `out.view(-1)[positions] += g(position)`. -/
def scatterAdd : List ℚ → List ℕ → (ℕ → ℚ) → List ℚ
  | l, [], _ => l
  | l, p :: ps, g => scatterAdd (l.set p (l.getD p 0 + g p)) ps g

theorem scatterSet_length (v : ℚ) :
    ∀ (ps : List ℕ) (l : List ℚ), (scatterSet l ps v).length = l.length
  | [], _ => rfl
  | p :: ps, l => by
    rw [scatterSet, scatterSet_length v ps]
    simp

theorem scatterAdd_length (g : ℕ → ℚ) :
    ∀ (ps : List ℕ) (l : List ℚ), (scatterAdd l ps g).length = l.length
  | [], _ => rfl
  | p :: ps, l => by
    rw [scatterAdd, scatterAdd_length g ps]
    simp

theorem scatterSet_getD (v : ℚ) :
    ∀ (ps : List ℕ) (l : List ℚ) (i : ℕ), i < l.length →
      (scatterSet l ps v).getD i 0 = if i ∈ ps then v else l.getD i 0
  | [], l, i, _ => by simp [scatterSet]
  | p :: ps, l, i, hi => by
    rw [scatterSet, scatterSet_getD v ps _ i (by simpa using hi)]
    have hset : (l.set p v).getD i 0 = if p = i then v else l.getD i 0 := by
      rw [List.getD_eq_getElem _ 0 (by simpa using hi), List.getElem_set,
        ← List.getD_eq_getElem l 0 hi]
    rw [hset]
    simp only [List.mem_cons]
    by_cases hmem : i ∈ ps
    · simp [hmem]
    · by_cases hpi : i = p
      · simp [hmem, hpi]
      · simp [hmem, hpi, Ne.symm hpi]

theorem scatterAdd_getD (g : ℕ → ℚ) :
    ∀ (ps : List ℕ) (l : List ℚ) (i : ℕ), ps.Nodup → i < l.length →
      (scatterAdd l ps g).getD i 0 = if i ∈ ps then l.getD i 0 + g i else l.getD i 0
  | [], l, i, _, _ => by simp [scatterAdd]
  | p :: ps, l, i, hnd, hi => by
    rw [scatterAdd, scatterAdd_getD g ps _ i (List.Nodup.of_cons hnd) (by simpa using hi)]
    have hset : (l.set p (l.getD p 0 + g p)).getD i 0 =
        if p = i then l.getD p 0 + g p else l.getD i 0 := by
      rw [List.getD_eq_getElem _ 0 (by simpa using hi), List.getElem_set,
        ← List.getD_eq_getElem l 0 hi]
    rw [hset]
    simp only [List.mem_cons]
    by_cases hpi : i = p
    · have hnotmem : p ∉ ps := (List.nodup_cons.mp hnd).1
      simp [hpi, hnotmem]
    · by_cases hmem : i ∈ ps
      · simp [hmem, hpi, Ne.symm hpi]
      · simp [hmem, hpi, Ne.symm hpi]

/-- One tensor's processing in `TopKReducer.reduce`: select the top positions, write
the original with those positions zeroed into memory, and accumulate
`value / n_workers` into the zeroed output at each selected position (the single
worker's own contribution). The first component is `grad_out`, the second
`memory_out`. -/
def topkPerTensor (compression : ℚ) (nWorkers : ℕ) (xs : List ℚ) : List ℚ × List ℚ :=
  let ps := topkPositions xs (topSize compression xs.length)
  (scatterAdd (List.replicate xs.length 0) ps (fun p => xs.getD p 0 / (nWorkers : ℚ)),
   scatterSet xs ps 0)

/-- `TopKReducer.reduce` with a single worker: each tensor is processed independently;
the returned bit count is `n_bits(flat_values) + n_bits(flat_positions)` (float32
values and int32 positions, 4 bytes per element, `flatgrad_size` entries each), added
unconditionally even though the `n_workers == 1` branch skips the all-gather. -/
def topkReduce (compression : ℚ) (nWorkers : ℕ) (grads : List (List ℚ)) : ReduceOut :=
  let sizes := (grads.map fun t => topSize compression t.length).sum
  ⟨grads.map fun t => (topkPerTensor compression nWorkers t).1,
   grads.map fun t => (topkPerTensor compression nWorkers t).2,
   nBits sizes 4 + nBits sizes 4⟩

theorem topkPositions_length (xs : List ℚ) (k : ℕ) (hk : k ≤ xs.length) :
    (topkPositions xs k).length = k := by
  unfold topkPositions
  rw [List.length_take, List.length_insertionSort, List.length_range]
  omega

theorem topkPositions_nodup (xs : List ℚ) (k : ℕ) : (topkPositions xs k).Nodup := by
  have hperm := List.perm_insertionSort (topRel xs) (List.range xs.length)
  have hnd : (List.insertionSort (topRel xs) (List.range xs.length)).Nodup :=
    hperm.nodup_iff.mpr (List.nodup_range _)
  exact hnd.sublist (List.take_sublist _ _)

theorem topkPositions_mem_lt (xs : List ℚ) (k : ℕ) :
    ∀ i ∈ topkPositions xs k, i < xs.length := by
  intro i hi
  have hperm := List.perm_insertionSort (topRel xs) (List.range xs.length)
  have : i ∈ List.insertionSort (topRel xs) (List.range xs.length) :=
    List.mem_of_mem_take hi
  simpa using hperm.mem_iff.mp this

/-- Selected positions dominate unselected ones in absolute value. -/
theorem topkPositions_spec (xs : List ℚ) (k : ℕ) :
    ∀ i ∈ topkPositions xs k, ∀ j < xs.length, j ∉ topkPositions xs k →
      |xs.getD j 0| ≤ |xs.getD i 0| := by
  intro i hi j hj hjS
  haveI : IsTotal ℕ (topRel xs) := ⟨topRel_total xs⟩
  haveI : IsTrans ℕ (topRel xs) := ⟨fun a b c => topRel_trans xs a b c⟩
  have hsort := List.sorted_insertionSort (topRel xs) (List.range xs.length)
  set L := List.insertionSort (topRel xs) (List.range xs.length) with hL
  have hjL : j ∈ L := by
    have hperm := List.perm_insertionSort (topRel xs) (List.range xs.length)
    exact hperm.mem_iff.mpr (List.mem_range.mpr hj)
  have hsplit : L = L.take k ++ L.drop k := (List.take_append_drop k L).symm
  have hpw : List.Pairwise (topRel xs) (L.take k ++ L.drop k) := by
    rw [← hsplit]; exact hsort
  have hcross := (List.pairwise_append.mp hpw).2.2
  have hjdrop : j ∈ L.drop k := by
    rcases (List.mem_append.mp (hsplit ▸ hjL)) with hcase | hcase
    · exact absurd hcase hjS
    · exact hcase
  have hrel : topRel xs i j := hcross i hi j hjdrop
  rcases hrel with h | ⟨h, _⟩
  · exact h.le
  · exact h.ge

/-- Claim C4: for every tensor of the input set, `TopKReducer.reduce` selects exactly
`top_size = max(1, floor(0.5 * compression * nelement))` pairwise-distinct positions
whose absolute values dominate all unselected positions; `memory_out` holds the
original tensor with exactly the selected positions zeroed, and with one worker
`grad_out` is 0 at every unselected position and the original value at selected
ones. -/
theorem claim4_topk_selection (compression : ℚ) (grads : List (List ℚ)) (t : ℕ)
    (xs : List ℚ) (hxs : grads.getD t [] = xs) (ht : t < grads.length)
    (hk : topSize compression xs.length ≤ xs.length) :
    (topkPositions xs (topSize compression xs.length)).length =
      topSize compression xs.length ∧
    (topkPositions xs (topSize compression xs.length)).Nodup ∧
    (∀ i ∈ topkPositions xs (topSize compression xs.length), ∀ j < xs.length,
      j ∉ topkPositions xs (topSize compression xs.length) →
        |xs.getD j 0| ≤ |xs.getD i 0|) ∧
    (∀ i < xs.length,
      ((topkReduce compression 1 grads).memoryOut.getD t []).getD i 0 =
        if i ∈ topkPositions xs (topSize compression xs.length) then 0
        else xs.getD i 0) ∧
    (∀ i < xs.length,
      ((topkReduce compression 1 grads).gradOut.getD t []).getD i 0 =
        if i ∈ topkPositions xs (topSize compression xs.length) then xs.getD i 0
        else 0) := by
  have hmem : (topkReduce compression 1 grads).memoryOut.getD t [] =
      (topkPerTensor compression 1 xs).2 := by
    show ((grads.map fun u => (topkPerTensor compression 1 u).2).getD t []) = _
    rw [List.getD_eq_getElem _ [] (by simpa using ht), List.getElem_map, ← hxs,
      List.getD_eq_getElem _ [] ht]
  have hgrad : (topkReduce compression 1 grads).gradOut.getD t [] =
      (topkPerTensor compression 1 xs).1 := by
    show ((grads.map fun u => (topkPerTensor compression 1 u).1).getD t []) = _
    rw [List.getD_eq_getElem _ [] (by simpa using ht), List.getElem_map, ← hxs,
      List.getD_eq_getElem _ [] ht]
  refine ⟨topkPositions_length xs _ hk, topkPositions_nodup xs _,
    topkPositions_spec xs _, ?_, ?_⟩
  · intro i hi
    rw [hmem]
    show (scatterSet xs (topkPositions xs (topSize compression xs.length)) 0).getD i 0 = _
    rw [scatterSet_getD 0 _ xs i hi]
  · intro i hi
    rw [hgrad]
    show (scatterAdd (List.replicate xs.length 0)
        (topkPositions xs (topSize compression xs.length))
        (fun p => xs.getD p 0 / ((1 : ℕ) : ℚ))).getD i 0 = _
    rw [scatterAdd_getD _ _ _ i (topkPositions_nodup xs _) (by simpa using hi)]
    have hrep : (List.replicate xs.length (0 : ℚ)).getD i 0 = 0 := by
      rw [List.getD_eq_getElem _ 0 (by simpa using hi)]
      simp
    rw [hrep]
    by_cases hmem' : i ∈ topkPositions xs (topSize compression xs.length) <;>
      simp [hmem']

/-- Witness for C4 on the tensor `[3, -5, 1]` with `compression = 1`
(`top_size = 1`). -/
theorem claim4_topk_selection_witness :
    ([[(3 : ℚ), -5, 1]] : List (List ℚ)).getD 0 [] = [(3 : ℚ), -5, 1] ∧
    0 < ([[(3 : ℚ), -5, 1]] : List (List ℚ)).length ∧
    topSize 1 [(3 : ℚ), -5, 1].length ≤ [(3 : ℚ), -5, 1].length ∧
    (∀ i < [(3 : ℚ), -5, 1].length,
      ((topkReduce 1 1 [[(3 : ℚ), -5, 1]]).gradOut.getD 0 []).getD i 0 =
        if i ∈ topkPositions [(3 : ℚ), -5, 1] (topSize 1 [(3 : ℚ), -5, 1].length)
        then [(3 : ℚ), -5, 1].getD i 0 else 0) := by
  have hk : topSize 1 [(3 : ℚ), -5, 1].length ≤ [(3 : ℚ), -5, 1].length := by
    norm_num [topSize]
  exact ⟨rfl, by norm_num,
    hk, (claim4_topk_selection 1 [[(3 : ℚ), -5, 1]] 0 [(3 : ℚ), -5, 1] rfl
      (by norm_num) hk).2.2.2.2⟩

/-- Counterexample to C5 as stated: with one worker `TopKReducer.reduce` performs no
collective call yet returns a nonzero bit count (the compressed representation is
counted whether or not it is placed on the wire). -/
theorem claim5_counterexample :
    (topkReduce 1 1 [[(5 : ℚ), 3]]).bits = 64 ∧ (64 : ℕ) ≠ 0 := by
  constructor
  · show nBits (([[(5 : ℚ), 3]].map fun t => topSize 1 t.length).sum) 4 +
      nBits (([[(5 : ℚ), 3]].map fun t => topSize 1 t.length).sum) 4 = 64
    norm_num [topSize, nBits]
  · decide

/-- Claim C5 (amended): each reducer's returned bit count follows
`n_bits = 8 * elements * element_size` summed over the tensors of its communicated
representation, but it is accumulated whether or not the `n_workers == 1` branch skips
the collective: `TopKReducer` always returns `64 * Σ top_size` bits (float32 values
plus int32 indices); only `reduce_mean_list` (the exact path) returns 0 for a single
worker. -/
theorem claim5_bits_accounting (compression : ℚ) (nWorkers : ℕ) (grads : List (List ℚ)) :
    (topkReduce compression nWorkers grads).bits =
      64 * (grads.map fun t => topSize compression t.length).sum ∧
    (∀ gs : List (List ℚ), (reduceMeanList [gs]).2 = 0) ∧
    (∀ n e : ℕ, nBits n e = 8 * n * e) := by
  refine ⟨?_, fun gs => rfl, fun n e => rfl⟩
  show nBits ((grads.map fun t => topSize compression t.length).sum) 4 +
    nBits ((grads.map fun t => topSize compression t.length).sum) 4 = _
  unfold nBits
  ring

/-! ### `AtomoReducer` rejection sampling -/

/-- `AtomoReducer.probabilities`: `s * |λ_i| / Σ|λ_j|` clamped from above at 1
(`probs[probs > 1] = 1.0`, which on these non-negative entries is `min(·, 1)`). -/
def atomoProbabilities (s : ℕ) (eigenvalues : List ℚ) : List ℚ :=
  eigenvalues.map fun e => min ((s : ℚ) * |e| / (eigenvalues.map abs).sum) 1

/-- One rejection-sampling draw of `sample_singular_values`:
`pick = indices[probabilities > noise]` for one fresh noise vector. -/
def samplePick (probs noise : List ℚ) : List ℕ :=
  (List.range probs.length).filter fun i => noise.getD i 0 < probs.getD i 0

/-- The matching `sample_probs = probabilities[probabilities > noise]`. -/
def samplePickProbs (probs noise : List ℚ) : List ℚ :=
  (samplePick probs noise).map fun i => probs.getD i 0

/-- The retry loop of `AtomoReducer.sample_singular_values`: while the pick does not
hold exactly `rank` indices, the guard `n_attempts > 1000` raises, otherwise a fresh
noise vector is drawn and the pick recomputed. `noise a` is the noise of attempt `a`;
`fuel` is the remaining budget `1001 - n`, so exhausted fuel is exactly the Python
guard firing. -/
def sampleLoop (rank : ℕ) (probs : List ℚ) (noise : ℕ → List ℚ) :
    ℕ → List ℕ → List ℚ → ℕ → Except Unit (List ℕ × List ℚ)
  | fuel, pick, sprobs, n =>
    if pick.length = rank then .ok (pick, sprobs)
    else
      match fuel with
      | 0 => .error ()
      | f + 1 => sampleLoop rank probs noise f (samplePick probs (noise n))
          (samplePickProbs probs (noise n)) (n + 1)

/-- `AtomoReducer.sample_singular_values`, starting from the empty pick, attempt
counter 0 and the full 1001-attempt budget. -/
def sampleSingularValues (rank : ℕ) (probs : List ℚ) (noise : ℕ → List ℚ) :
    Except Unit (List ℕ × List ℚ) :=
  sampleLoop rank probs noise 1001 [] [] 0

theorem sampleLoop_spec (rank : ℕ) (probs : List ℚ) (noise : ℕ → List ℚ) :
    ∀ (fuel : ℕ) (pick : List ℕ) (n : ℕ),
    sampleLoop rank probs noise fuel pick (pick.map fun i => probs.getD i 0) n =
      .error () ∨
    ∃ p, sampleLoop rank probs noise fuel pick (pick.map fun i => probs.getD i 0) n =
        .ok (p, p.map fun i => probs.getD i 0) ∧ p.length = rank := by
  intro fuel
  induction fuel with
  | zero =>
    intro pick n
    by_cases h1 : pick.length = rank
    · right
      exact ⟨pick, by rw [sampleLoop, if_pos h1], h1⟩
    · left
      rw [sampleLoop, if_neg h1]
  | succ f ih =>
    intro pick n
    by_cases h1 : pick.length = rank
    · right
      exact ⟨pick, by rw [sampleLoop, if_pos h1], h1⟩
    · have heq : samplePickProbs probs (noise n) =
          (samplePick probs (noise n)).map fun i => probs.getD i 0 := rfl
      rw [sampleLoop, if_neg h1, heq]
      exact ih (samplePick probs (noise n)) (n + 1)

/-- Claim C9: `AtomoReducer.sample_singular_values` either returns exactly `rank`
indices paired with their clamped sampling probabilities
`min(1, rank * |λ_i| / Σ|λ_j|)`, or fails hard once the 1000-attempt budget is
exceeded; it never returns a pick of another size and an exhausted budget raises
immediately instead of retrying. -/
theorem claim9_atomo_sampling (rank : ℕ) (eigenvalues : List ℚ) (noise : ℕ → List ℚ) :
    (sampleSingularValues rank (atomoProbabilities rank eigenvalues) noise = .error () ∨
     ∃ p, sampleSingularValues rank (atomoProbabilities rank eigenvalues) noise =
         .ok (p, p.map fun i => (atomoProbabilities rank eigenvalues).getD i 0) ∧
       p.length = rank) ∧
    (∀ (pick : List ℕ) (sprobs : List ℚ) (n : ℕ), pick.length ≠ rank →
      sampleLoop rank (atomoProbabilities rank eigenvalues) noise 0 pick sprobs n =
        .error ()) ∧
    (∀ i < eigenvalues.length,
      (atomoProbabilities rank eigenvalues).getD i 0 =
        min ((rank : ℚ) * |eigenvalues.getD i 0| / (eigenvalues.map abs).sum) 1) := by
  refine ⟨sampleLoop_spec rank (atomoProbabilities rank eigenvalues) noise 1001 [] 0,
    ?_, ?_⟩
  · intro pick sprobs n hne
    rw [sampleLoop, if_neg hne]
  · intro i hi
    unfold atomoProbabilities
    rw [List.getD_eq_getElem _ 0 (by simpa using hi), List.getElem_map,
      ← List.getD_eq_getElem eigenvalues 0 hi]

/-! ### `SignSGDwithMajorityVoteReducer` and `AtomoReducer.reduce` -/

/-- `SignSGDwithMajorityVoteReducer.reduce`: every worker's flat gradient is
sign-compressed and gathered (`bits = [my_bits]` when alone); the uncompressed sign
tensors are summed, `total_sign = sum_of_signs.sign()` is routed through the flat
buffer into `grad_out`, and every `memory_out` tensor is filled with the constant
`-10_000_000` (the code's `don't try to use memory`). Worker 0 is the caller. -/
def signSGDMajorityVoteReduce (workersGrads : List (List (List ℚ)))
    (memOut : List (List ℚ)) : ReduceOut :=
  let own := workersGrads.headD []
  let flat := (TensorBuffer.pack own).buffer
  let uncompressedAll := workersGrads.map fun gs =>
    uncompress (compressWords (TensorBuffer.pack gs).buffer) flat.length
  let totalSign := (sumBuffers uncompressedAll).map signQ
  ⟨tbUnpackAux (own.map List.length) totalSign,
   memOut.map fun t => t.map fun _ => (-10000000 : ℚ),
   nBits (compressWords flat).length 4⟩

/-- The `(U, S, V)` factors returned by `torch.svd` for one (reshaped 2-D) tensor;
the SVD kernel itself is an external collaborator supplied as an oracle. -/
structure SVDTriple where
  u : List (List ℚ)
  s : List ℚ
  v : List (List ℚ)
  deriving DecidableEq, Repr

/-- Column selection `u[:, sample]`. -/
def selectCols (m : List (List ℚ)) (pick : List ℕ) : List (List ℚ) :=
  m.map fun row => pick.map fun i => row.getD i 0

/-- `torch.einsum('md, d, nd -> mn', u, s, v)`. -/
def einsumUSV (u : List (List ℚ)) (s : List ℚ) (v : List (List ℚ)) : List (List ℚ) :=
  u.map fun urow => v.map fun vrow =>
    ((List.range s.length).map fun d => urow.getD d 0 * s.getD d 0 * vrow.getD d 0).sum

/-- Per-tensor encode of `AtomoReducer.reduce`: clamped probabilities of the singular
values, rejection sampling, column selection `u[:, sample]`, `v[:, sample]` and the
unbiasedness rescale `s[sample] / sample_probs`. -/
def atomoEncodeTensor (rank : ℕ) (svd : SVDTriple) (noise : ℕ → List ℚ) :
    Except Unit SVDTriple :=
  match sampleSingularValues rank (atomoProbabilities rank svd.s) noise with
  | .error e => .error e
  | .ok (pick, sprobs) =>
      .ok ⟨selectCols svd.u pick,
        (pick.zip sprobs).map fun ip => svd.s.getD ip.1 0 / ip.2,
        selectCols svd.v pick⟩

/-- Encode every tensor in order; the first sampling failure aborts the whole
`reduce` call (the exception propagates before `memory_out` is touched). -/
def atomoEncodeAux (rank : ℕ) (noise : ℕ → ℕ → List ℚ) :
    ℕ → List SVDTriple → Except Unit (List SVDTriple)
  | _, [] => .ok []
  | t, svd :: rest =>
    match atomoEncodeTensor rank svd (noise t), atomoEncodeAux rank noise (t + 1) rest with
    | .ok e, .ok es => .ok (e :: es)
    | .error e, _ => .error e
    | _, .error e => .error e

/-- The ordered tensor list `us + ss + vs` packed by `TensorBuffer` in
`AtomoReducer.reduce`. -/
def triplesToTensors (ts : List SVDTriple) : List (List ℚ) :=
  (ts.map fun t => t.u.flatten) ++ (ts.map SVDTriple.s) ++ (ts.map fun t => t.v.flatten)

/-- Rebuild `rows` rows of `rowLen` entries from a flat segment (a `view`). -/
def reshapeRows : ℕ → ℕ → List ℚ → List (List ℚ)
  | 0, _, _ => []
  | rows + 1, rowLen, flat => flat.take rowLen :: reshapeRows rows rowLen (flat.drop rowLen)

/-- Decode one worker's gathered buffer: unpack into the local sampled shapes and
reconstruct each tensor with the einsum. -/
def atomoDecode (ts : List SVDTriple) (buf : List ℚ) : List (List (List ℚ)) :=
  let segs := tbUnpackAux ((triplesToTensors ts).map List.length) buf
  let k := ts.length
  (List.range k).map fun i =>
    let tpl := ts.getD i ⟨[], [], []⟩
    einsumUSV (reshapeRows tpl.u.length tpl.s.length (segs.getD i []))
      (segs.getD (k + i) [])
      (reshapeRows tpl.v.length tpl.s.length (segs.getD (2 * k + i) []))

/-- Element-wise matrix sum and scaling (for the `out.add_(1/n, ·)` average). -/
def matAdd (a b : List (List ℚ)) : List (List ℚ) :=
  a.zipWith (fun ra rb => ra.zipWith (· + ·) rb) b

def matScale (c : ℚ) (a : List (List ℚ)) : List (List ℚ) := a.map (List.map (c * ·))

def sumMats : List (List (List ℚ)) → List (List ℚ)
  | [] => []
  | m :: ms => ms.foldl matAdd m

/-- `AtomoReducer.reduce` (2-D tensors, for which `reshape_to_2d` is the identity):
encode locally (sampling may raise), pack `us + ss + vs`, all-gather the buffers
(`otherBuffers` are the other workers' encodings), decode and average every worker's
reconstruction into `grad_out`, and finally fill every `memory_out` tensor with the
constant `-10_000_000`. -/
def atomoReduce (rank : ℕ) (svds : List SVDTriple) (noise : ℕ → ℕ → List ℚ)
    (otherBuffers : List (List ℚ)) (memOut : List (List ℚ)) : Except Unit ReduceOut :=
  match atomoEncodeAux rank noise 0 svds with
  | .error e => .error e
  | .ok triples =>
    let ownBuf := (TensorBuffer.pack (triplesToTensors triples)).buffer
    let allBufs := ownBuf :: otherBuffers
    let n := allBufs.length
    let outs := (List.range triples.length).map fun t =>
      matScale (1 / (n : ℚ)) (sumMats (allBufs.map fun b => (atomoDecode triples b).getD t []))
    .ok ⟨outs.map List.flatten,
      memOut.map fun t => t.map fun _ => (-10000000 : ℚ),
      nBits ownBuf.length 4⟩

/-- Claim C10: after `SignSGDwithMajorityVoteReducer.reduce` returns, and after
`AtomoReducer.reduce` returns (rather than raising), every `memory_out` tensor holds
the constant `-10000000` in every element, independent of the gradients: for these two
reducers the memory is a do-not-use sentinel, not a residual. -/
theorem claim10_memory_sentinel (workersGrads : List (List (List ℚ)))
    (memOut : List (List ℚ)) (rank : ℕ) (svds : List SVDTriple)
    (noise : ℕ → ℕ → List ℚ) (otherBuffers : List (List ℚ))
    (memOutA : List (List ℚ)) (r : ReduceOut)
    (h : atomoReduce rank svds noise otherBuffers memOutA = .ok r) :
    (signSGDMajorityVoteReduce workersGrads memOut).memoryOut =
      (memOut.map fun t => t.map fun _ => (-10000000 : ℚ)) ∧
    r.memoryOut = memOutA.map fun t => t.map fun _ => (-10000000 : ℚ) := by
  refine ⟨rfl, ?_⟩
  unfold atomoReduce at h
  cases henc : atomoEncodeAux rank noise 0 svds with
  | error e =>
    rw [henc] at h
    exact absurd h (by simp)
  | ok triples =>
    rw [henc] at h
    cases h
    rfl

/-- Witness for C10 at a concrete 1x1 tensor whose sampling succeeds on the first
draw. -/
theorem claim10_memory_sentinel_witness :
    (signSGDMajorityVoteReduce [[[(2 : ℚ)]]] [[(7 : ℚ)]]).memoryOut =
      (([[(7 : ℚ)]] : List (List ℚ)).map fun t => t.map fun _ => (-10000000 : ℚ)) ∧
    (ReduceOut.mk [[(1 : ℚ)]] [[(-10000000 : ℚ)]] 96).memoryOut =
      (([[(5 : ℚ)]] : List (List ℚ)).map fun t => t.map fun _ => (-10000000 : ℚ)) :=
  claim10_memory_sentinel [[[(2 : ℚ)]]] [[(7 : ℚ)]] 1 [⟨[[1]], [1], [[1]]⟩]
    (fun _ _ => [0]) [] [[(5 : ℚ)]] (ReduceOut.mk [[(1 : ℚ)]] [[(-10000000 : ℚ)]] 96)
    (by
      have hprob : atomoProbabilities 1 [(1 : ℚ)] = [1] := by
        norm_num [atomoProbabilities]
      have hsample : sampleSingularValues 1 (atomoProbabilities 1 [(1 : ℚ)])
          (fun _ => [(0 : ℚ)]) = .ok ([0], [1]) := by
        rw [hprob]
        rfl
      have hencT : atomoEncodeTensor 1 ⟨[[1]], [1], [[1]]⟩ (fun _ => [(0 : ℚ)]) =
          .ok ⟨[[1]], [(1 : ℚ)], [[1]]⟩ := by
        unfold atomoEncodeTensor
        rw [show (⟨[[1]], [1], [[1]]⟩ : SVDTriple).s = [(1 : ℚ)] from rfl, hsample]
        norm_num [selectCols]
      have hencAll : atomoEncodeAux 1 (fun _ _ => [(0 : ℚ)]) 0 [⟨[[1]], [1], [[1]]⟩] =
          .ok [⟨[[1]], [(1 : ℚ)], [[1]]⟩] := by
        simp only [atomoEncodeAux, hencT]
      unfold atomoReduce
      rw [hencAll]
      norm_num [triplesToTensors, TensorBuffer.pack, atomoDecode, tbUnpackAux,
        reshapeRows, einsumUSV, sumMats, matScale, matAdd, nBits, selectCols,
        List.range_succ])

/-! ### `orthogonalize` (modified Gram-Schmidt) -/

/-- Column dot product `torch.sum(col * rest, dim=0)` for length-`n` columns. -/
def dotF {n : ℕ} (u v : Fin n → ℚ) : ℚ := ∑ k, u k * v k

theorem dotF_comm {n : ℕ} (u v : Fin n → ℚ) : dotF u v = dotF v u := by
  simp [dotF, mul_comm]

theorem dotF_div {n : ℕ} (v c : Fin n → ℚ) (s : ℚ) :
    dotF v (fun k => c k / s) = dotF v c / s := by
  simp only [dotF, div_eq_mul_inv, Finset.sum_mul]
  exact Finset.sum_congr rfl fun k _ => by ring

theorem dotF_sub_smul {n : ℕ} (v a b : Fin n → ℚ) (t : ℚ) :
    dotF v (fun k => a k - t * b k) = dotF v a - t * dotF v b := by
  simp only [dotF, mul_sub, Finset.sum_sub_distrib, Finset.mul_sum]
  congr 1
  exact Finset.sum_congr rfl fun k _ => by ring

/-- `orthogonalize(matrix, eps=1e-8)`: exactly one left-to-right pass over the columns;
column `i` is divided by `sqrt(sum(col ** 2)) + eps` (the square-root float kernel is
the oracle `sq`), then its projection `sum(col * rest, dim=0) * col` is subtracted from
every later column in place. -/
def orthogonalize (n : ℕ) (sq : ℚ → ℚ) (eps : ℚ) : List (Fin n → ℚ) → List (Fin n → ℚ)
  | [] => []
  | c :: rest =>
    let nc := fun k => c k / (sq (dotF c c) + eps)
    nc :: orthogonalize n sq eps (rest.map fun r => fun k => r k - dotF nc r * nc k)
termination_by P => P.length
decreasing_by
  simp [List.length_map]

/-- The squared column norms fed to the square root at each step of the pass. -/
def orthoNorms (n : ℕ) (sq : ℚ → ℚ) (eps : ℚ) : List (Fin n → ℚ) → List ℚ
  | [] => []
  | c :: rest =>
    let nc := fun k => c k / (sq (dotF c c) + eps)
    dotF c c :: orthoNorms n sq eps (rest.map fun r => fun k => r k - dotF nc r * nc k)
termination_by P => P.length
decreasing_by
  simp [List.length_map]

theorem orthogonalize_cons (n : ℕ) (sq : ℚ → ℚ) (eps : ℚ) (c : Fin n → ℚ)
    (rest : List (Fin n → ℚ)) :
    orthogonalize n sq eps (c :: rest) =
      (fun k => c k / (sq (dotF c c) + eps)) ::
        orthogonalize n sq eps (rest.map fun r => fun k =>
          r k - dotF (fun k2 => c k2 / (sq (dotF c c) + eps)) r *
            (c k / (sq (dotF c c) + eps))) := by
  rw [orthogonalize]

/-- The cons equation of `orthoNorms`, zeta-reduced. -/
theorem orthoNorms_cons (n : ℕ) (sq : ℚ → ℚ) (eps : ℚ) (c : Fin n → ℚ)
    (rest : List (Fin n → ℚ)) :
    orthoNorms n sq eps (c :: rest) =
      dotF c c ::
        orthoNorms n sq eps (rest.map fun r => fun k =>
          r k - dotF (fun k2 => c k2 / (sq (dotF c c) + eps)) r *
            (c k / (sq (dotF c c) + eps))) := by
  rw [orthoNorms]

/-- The pass keeps every column inside the span of the columns it started from: a
vector orthogonal to all input columns stays orthogonal to all output columns. -/
theorem orthogonalize_perp (n : ℕ) (sq : ℚ → ℚ) (eps : ℚ) (v : Fin n → ℚ) :
    ∀ P : List (Fin n → ℚ), (∀ c ∈ P, dotF v c = 0) →
      ∀ d ∈ orthogonalize n sq eps P, dotF v d = 0
  | [], _ => by simp [orthogonalize]
  | c :: rest, h => by
    intro d hd
    rw [orthogonalize_cons] at hd
    have hvc : dotF v (fun k => c k / (sq (dotF c c) + eps)) = 0 := by
      rw [dotF_div, h c (List.mem_cons_self c rest), zero_div]
    rcases List.mem_cons.mp hd with rfl | hd'
    · exact hvc
    · refine orthogonalize_perp n sq eps v _ ?_ d hd'
      intro r' hr'
      rcases List.mem_map.mp hr' with ⟨r, hr, rfl⟩
      rw [dotF_sub_smul, h r (List.mem_cons_of_mem _ hr), hvc, mul_zero, sub_zero]
termination_by P => P.length
decreasing_by
  simp [List.length_map]

/-- Orthonormality of the single modified-Gram-Schmidt pass, stated for any epsilon
whose effective divisor `sq(norm) + eps` is a positive exact square root of the
encountered norm. -/
theorem orthogonalize_orthonormal_aux (n : ℕ) (sq : ℚ → ℚ) (eps : ℚ) :
    ∀ P : List (Fin n → ℚ),
    (∀ w ∈ orthoNorms n sq eps P, 0 < sq w + eps ∧ (sq w + eps) ^ 2 = w) →
    ∀ i j, i < (orthogonalize n sq eps P).length →
      j < (orthogonalize n sq eps P).length →
      dotF ((orthogonalize n sq eps P).getD i fun _ => 0)
        ((orthogonalize n sq eps P).getD j fun _ => 0) = if i = j then 1 else 0
  | [] => by
    intro _ i j hi _
    simp [orthogonalize] at hi
  | c :: rest => by
    intro hsq i j hi hj
    have hnorm : dotF c c ∈ orthoNorms n sq eps (c :: rest) := by
      rw [orthoNorms_cons]
      exact List.mem_cons_self _ _
    obtain ⟨hDpos, hDsq⟩ := hsq _ hnorm
    rw [orthogonalize_cons] at hi hj ⊢
    set D := sq (dotF c c) + eps with hD
    have hDne : D ≠ 0 := ne_of_gt hDpos
    have hncnc : dotF (fun k => c k / D) (fun k => c k / D) = 1 := by
      rw [dotF_div, dotF_comm, dotF_div, ← hDsq]
      field_simp
      ring
    set rest' := rest.map (fun r => fun k =>
      r k - dotF (fun k2 => c k2 / D) r * (c k / D)) with hrest'
    have hperp0 : ∀ r' ∈ rest', dotF (fun k => c k / D) r' = 0 := by
      intro r' hr'
      rw [hrest'] at hr'
      rcases List.mem_map.mp hr' with ⟨r, _, rfl⟩
      rw [dotF_sub_smul, hncnc, mul_one, sub_self]
    have hsqtail : ∀ w ∈ orthoNorms n sq eps rest',
        0 < sq w + eps ∧ (sq w + eps) ^ 2 = w := by
      intro w hw
      refine hsq w ?_
      rw [orthoNorms_cons]
      exact List.mem_cons_of_mem _ hw
    have hQperp : ∀ q ∈ orthogonalize n sq eps rest',
        dotF (fun k => c k / D) q = 0 :=
      orthogonalize_perp n sq eps _ rest' hperp0
    have ihq := orthogonalize_orthonormal_aux n sq eps rest' hsqtail
    match i, j with
    | 0, 0 =>
      simpa using hncnc
    | 0, j + 1 =>
      have hj' : j < (orthogonalize n sq eps rest').length := by
        simpa using hj
      have hmem : (orthogonalize n sq eps rest').getD j (fun _ => 0) ∈
          orthogonalize n sq eps rest' := by
        rw [List.getD_eq_getElem _ _ hj']
        exact List.getElem_mem hj'
      simpa using hQperp _ hmem
    | i + 1, 0 =>
      have hi' : i < (orthogonalize n sq eps rest').length := by
        simpa using hi
      have hmem : (orthogonalize n sq eps rest').getD i (fun _ => 0) ∈
          orthogonalize n sq eps rest' := by
        rw [List.getD_eq_getElem _ _ hi']
        exact List.getElem_mem hi'
      rw [dotF_comm]
      simpa using hQperp _ hmem
    | i + 1, j + 1 =>
      have hi' : i < (orthogonalize n sq eps rest').length := by
        simpa using hi
      have hj' : j < (orthogonalize n sq eps rest').length := by
        simpa using hj
      simpa using ihq i j hi' hj'
termination_by P => P.length
decreasing_by
  simp [List.length_map]

/-- Claim C8: in exact arithmetic (zero epsilon and exact square roots of the
encountered column norms; the positivity of those roots encodes full column rank), the
single left-to-right modified-Gram-Schmidt pass of `orthogonalize` leaves `Pᵗ·P`
exactly the identity: every pair of output columns has dot product `1` on the diagonal
and `0` off it. -/
theorem claim8_orthogonalize_orthonormal (n : ℕ) (sq : ℚ → ℚ) (P : List (Fin n → ℚ))
    (hsq : ∀ w ∈ orthoNorms n sq 0 P, 0 < sq w ∧ sq w ^ 2 = w) :
    ∀ i j, i < (orthogonalize n sq 0 P).length → j < (orthogonalize n sq 0 P).length →
      dotF ((orthogonalize n sq 0 P).getD i fun _ => 0)
        ((orthogonalize n sq 0 P).getD j fun _ => 0) = if i = j then 1 else 0 := by
  refine orthogonalize_orthonormal_aux n sq 0 P ?_
  intro w hw
  obtain ⟨h1, h2⟩ := hsq w hw
  rw [add_zero]
  exact ⟨h1, h2⟩

/-- Witness for C8 on the 2x2 full-rank matrix with columns `(3,4)` and `(4,-3)`
(both encountered norms are 25, with exact root 5). -/
theorem claim8_orthogonalize_witness :
    (∀ w ∈ orthoNorms 2 (fun w => if w = 25 then 5 else 0) 0
        [![(3 : ℚ), 4], ![(4 : ℚ), -3]], 0 < (if w = 25 then (5 : ℚ) else 0) ∧
        (if w = 25 then (5 : ℚ) else 0) ^ 2 = w) ∧
    (∀ i j, i < (orthogonalize 2 (fun w => if w = 25 then 5 else 0) 0
        [![(3 : ℚ), 4], ![(4 : ℚ), -3]]).length →
      j < (orthogonalize 2 (fun w => if w = 25 then 5 else 0) 0
        [![(3 : ℚ), 4], ![(4 : ℚ), -3]]).length →
      dotF ((orthogonalize 2 (fun w => if w = 25 then 5 else 0) 0
          [![(3 : ℚ), 4], ![(4 : ℚ), -3]]).getD i fun _ => 0)
        ((orthogonalize 2 (fun w => if w = 25 then 5 else 0) 0
          [![(3 : ℚ), 4], ![(4 : ℚ), -3]]).getD j fun _ => 0) =
        if i = j then 1 else 0) := by
  have hnorms : orthoNorms 2 (fun w => if w = 25 then 5 else 0) 0
      [![(3 : ℚ), 4], ![(4 : ℚ), -3]] = [25, 25] := by
    norm_num [orthoNorms, dotF, Fin.sum_univ_two]
  have hw : ∀ w ∈ orthoNorms 2 (fun w => if w = 25 then 5 else 0) 0
      [![(3 : ℚ), 4], ![(4 : ℚ), -3]], 0 < (if w = 25 then (5 : ℚ) else 0) ∧
      (if w = 25 then (5 : ℚ) else 0) ^ 2 = w := by
    rw [hnorms]
    intro w hw
    rcases List.mem_cons.mp hw with rfl | hw'
    · norm_num
    · rcases List.mem_cons.mp hw' with rfl | hw''
      · norm_num
      · simp at hw''
  exact ⟨hw, claim8_orthogonalize_orthonormal 2 (fun w => if w = 25 then 5 else 0)
    [![(3 : ℚ), 4], ![(4 : ℚ), -3]] hw⟩

/-! ### `RankKReducer` -/

/-- A 2-D tensor as its list of rows (`tensor.view(tensor.shape[0], -1)` is the
identity on an already-2-D tensor). -/
abbrev Mat := List (List ℚ)

/-- The hardcoded `rank1` boolean array of `RankKReducer.reduce` (45 entries, `False`
at positions 20 and 42): it, and not the tensor's dimensionality, selects which
tensors go through the uncompressed packed-buffer path. -/
def rank1Mask : List Bool :=
  [true, true, true, true, true, true, true, true, true, true,
   true, true, true, true, true, true, true, true, true, true,
   false, true, true, true, true, true, true, true, true, true,
   true, true, true, true, true, true, true, true, true, true,
   true, true, false, true, true]

/-- The hardcoded `high_rank` boolean array (`True` exactly at positions 20 and
42). -/
def highRankMask : List Bool :=
  [false, false, false, false, false, false, false, false, false, false,
   false, false, false, false, false, false, false, false, false, false,
   true, false, false, false, false, false, false, false, false, false,
   false, false, false, false, false, false, false, false, false, false,
   false, false, true, false, false]

/-- The source's `[tensor for tensor, rank in zip(grad_tensors, mask) if rank == True]`
(`zip` truncates at the shorter list). -/
def maskFilter (mask : List Bool) (xs : List α) : List α :=
  (xs.zip mask).filterMap fun xb => if xb.2 then some xb.1 else none

/-- How many mask-selected positions precede position `k` (the ordinal of `k` within
the filtered list). -/
def countTrueBefore (mask : List Bool) (k : ℕ) : ℕ :=
  ((mask.take k).filter id).length

theorem maskFilter_cons (b : Bool) (ms : List Bool) (x : α) (xs : List α) :
    maskFilter (b :: ms) (x :: xs) =
      if b then x :: maskFilter ms xs else maskFilter ms xs := by
  cases b <;> simp [maskFilter]

theorem countTrueBefore_succ_cons (b : Bool) (ms : List Bool) (k : ℕ) :
    countTrueBefore (b :: ms) (k + 1) =
      (if b then 1 else 0) + countTrueBefore ms k := by
  cases b <;> simp [countTrueBefore, List.filter_cons] <;> omega

theorem maskFilter_getD (d : α) :
    ∀ (mask : List Bool) (xs : List α) (k : ℕ), k < xs.length →
      mask.getD k false = true →
      (maskFilter mask xs).getD (countTrueBefore mask k) d = xs.getD k d
  | [], _, k, _, hm => by simp [List.getD] at hm
  | b :: ms, [], k, hk, _ => by simp at hk
  | b :: ms, x :: xs, 0, _, hm => by
    have hb : b = true := by simpa using hm
    subst hb
    simp [maskFilter_cons, countTrueBefore]
  | b :: ms, x :: xs, k + 1, hk, hm => by
    have hm' : ms.getD k false = true := by simpa using hm
    have hk' : k < xs.length := by simpa using hk
    rw [countTrueBefore_succ_cons, maskFilter_cons]
    cases b
    · simpa using maskFilter_getD d ms xs k hk' hm'
    · rw [if_pos rfl, if_pos rfl, Nat.add_comm 1 (countTrueBefore ms k)]
      simpa using maskFilter_getD d ms xs k hk' hm'

theorem countTrueBefore_lt :
    ∀ (mask : List Bool) (xs : List α) (k : ℕ), k < xs.length →
      mask.getD k false = true →
      countTrueBefore mask k < (maskFilter mask xs).length
  | [], _, k, _, hm => by simp [List.getD] at hm
  | b :: ms, [], k, hk, _ => by simp at hk
  | b :: ms, x :: xs, 0, _, hm => by
    have hb : b = true := by simpa using hm
    subst hb
    simp [maskFilter_cons, countTrueBefore]
  | b :: ms, x :: xs, k + 1, hk, hm => by
    have hm' : ms.getD k false = true := by simpa using hm
    have hk' : k < xs.length := by simpa using hk
    rw [countTrueBefore_succ_cons, maskFilter_cons]
    cases b
    · simpa using countTrueBefore_lt ms xs k hk' hm'
    · have h := countTrueBefore_lt ms xs k hk' hm'
      simp
      omega

/-- The two masks never both select a position (`getD` is `false` past entry 44). -/
theorem masks_disjoint (k : ℕ) :
    rank1Mask.getD k false = true → highRankMask.getD k false = false := by
  intro h
  by_cases h45 : k < 45
  · have hb : ∀ m < 45, rank1Mask.getD m false = true →
        highRankMask.getD m false = false := by decide
    exact hb k h45 h
  · have hlen : highRankMask.length = 45 := rfl
    exact List.getD_eq_default _ _ (by omega)

/-- Rebuild a flat segment into the row shape of a template matrix (`unpack` writing
through a shaped view). -/
def reshapeLike : Mat → List ℚ → Mat
  | [], _ => []
  | r :: rs, flat => flat.take r.length :: reshapeLike rs (flat.drop r.length)

theorem reshapeLike_flatten_map (f : ℚ → ℚ) :
    ∀ t : Mat, reshapeLike t (t.flatten.map f) = t.map (List.map f)
  | [] => rfl
  | r :: rs => by
    simp only [List.flatten_cons, List.map_append, reshapeLike, List.map_cons]
    have hr : (r.map f).length = r.length := by simp
    rw [← hr, List.take_left, List.drop_left, reshapeLike_flatten_map f rs]

/-- Matrix product, transpose, difference and scaling on row-list matrices. -/
def matMul (A B : Mat) : Mat :=
  A.map fun row => (List.range (B.headD []).length).map fun jc =>
    ((List.range B.length).map fun kk => row.getD kk 0 * (B.getD kk []).getD jc 0).sum

def matTranspose (A : Mat) : Mat :=
  (List.range (A.headD []).length).map fun i => A.map fun row => row.getD i 0

def matSub (A B : Mat) : Mat :=
  A.zipWith (fun ra rb => ra.zipWith (· - ·) rb) B

theorem matScale_one (A : Mat) : matScale 1 A = A := by
  simp [matScale]

/-- Column dot product on list columns (`torch.sum(col * rest, dim=0)`). -/
def dotL (u v : List ℚ) : ℚ := (u.zipWith (· * ·) v).sum

/-- `orthogonalize` on a list of columns: the same single left-to-right
modified-Gram-Schmidt pass as `orthogonalize`, at the list-of-columns representation
used inside the `RankKReducer` model. -/
def orthogonalizeCols (sq : ℚ → ℚ) (eps : ℚ) : List (List ℚ) → List (List ℚ)
  | [] => []
  | c :: rest =>
    let nc := c.map fun x => x / (sq (dotL c c) + eps)
    nc :: orthogonalizeCols sq eps
      (rest.map fun r => List.zipWith (fun rk nck => rk - dotL nc r * nck) r nc)
termination_by P => P.length
decreasing_by
  simp [List.length_map]

/-- `orthogonalize(p)` on the row-major `n x rank` factor: transpose to columns, run
the pass, transpose back. -/
def orthogonalizeM (sq : ℚ → ℚ) (eps : ℚ) (P : Mat) : Mat :=
  matTranspose (orthogonalizeCols sq eps (matTranspose P))

/-- One high-rank tensor of `RankKReducer.reduce`, seen from worker 0: `ms` holds
every worker's matrix for this tensor and `q` the seeded random query (identical on
all workers). `p = M·q` is all-reduced (summed), orthogonalized in place with the
source's `eps = 1e-8`, `q' = Mᵗ·p` is all-reduced and divided by `n_workers`, and the
output is `p·q'ᵗ` with exact residual `M - p·q'ᵗ`. -/
def rankKHighTensor (sq : ℚ → ℚ) (q : Mat) (ms : List Mat) (nw : ℕ) : Mat × Mat :=
  let p := sumMats (ms.map fun mw => matMul mw q)
  let p2 := orthogonalizeM sq (1 / 100000000) p
  let q2 := matScale (1 / (nw : ℚ)) (sumMats (ms.map fun mw => matMul (matTranspose mw) p2))
  (matMul p2 (matTranspose q2), matSub (ms.headD []) (matMul p2 (matTranspose q2)))

/-- The observable result of `RankKReducer.reduce` (2-D tensors). -/
structure RankKOut where
  gradOut : List Mat
  memoryOut : List Mat
  bits : ℕ
  deriving Repr

/-- The per-ordinal results of the high-rank (power-iteration) path, in mask order. -/
def rankKHighResults (sq : ℚ → ℚ) (qO : ℕ → Mat)
    (workersGrads : List (List Mat)) : List (Mat × Mat) :=
  let ownHigh := maskFilter highRankMask (workersGrads.headD [])
  (List.range ownHigh.length).map fun j =>
    rankKHighTensor sq (qO j)
      ((workersGrads.map (maskFilter highRankMask)).map fun l => l.getD j [])
      workersGrads.length

/-- The rank-1 path: pack the mask-selected tensors of every worker into flat
buffers, all-reduce (sum), divide by `n_workers`, unpack and reshape. -/
def rankKRank1Outs (workersGrads : List (List Mat)) : List Mat :=
  let ownRank1 := maskFilter rank1Mask (workersGrads.headD [])
  let lens := (ownRank1.map List.flatten).map List.length
  let total := sumBuffers ((workersGrads.map (maskFilter rank1Mask)).map fun l =>
    (TensorBuffer.pack (l.map List.flatten)).buffer)
  let segs := tbUnpackAux lens (total.map (· / (workersGrads.length : ℚ)))
  (List.range ownRank1.length).map fun t =>
    reshapeLike (ownRank1.getD t []) (segs.getD t [])

/-- `RankKReducer.reduce`: the gradient set is split by the hardcoded positional
masks (`zip` truncates past entry 44); mask-`rank1` tensors go through the exact
packed-buffer path with their memory left untouched; mask-`high_rank` tensors get the
one-step power iteration with `memory = M - grad_out`; positions past the masks are
never written. `qO j` is the seeded random query of the `j`-th high-rank tensor,
`sq` the square-root kernel inside `orthogonalize`, worker 0 the caller; bit counts
are `n_bits(p_memory) + n_bits(q_memory) + rank1_buffer.bits()` (float32). -/
def rankKReduce (sq : ℚ → ℚ) (selfRank : ℕ) (qO : ℕ → Mat)
    (workersGrads : List (List Mat)) (outInit memInit : List Mat) : RankKOut :=
  let own := workersGrads.headD []
  let ownHigh := maskFilter highRankMask own
  let pBits := nBits ((ownHigh.map fun M =>
    M.length * min (min M.length (M.headD []).length) selfRank).sum) 4
  let qBits := nBits ((ownHigh.map fun M =>
    (M.headD []).length * min (min M.length (M.headD []).length) selfRank).sum) 4
  let r1Bits := nBits (((maskFilter rank1Mask own).map List.flatten).map List.length).sum 4
  ⟨(List.range own.length).map fun k =>
      if rank1Mask.getD k false then
        (rankKRank1Outs workersGrads).getD (countTrueBefore rank1Mask k) []
      else if highRankMask.getD k false then
        ((rankKHighResults sq qO workersGrads).getD (countTrueBefore highRankMask k)
          ([], [])).1
      else outInit.getD k [],
   (List.range own.length).map fun k =>
      if highRankMask.getD k false then
        ((rankKHighResults sq qO workersGrads).getD (countTrueBefore highRankMask k)
          ([], [])).2
      else memInit.getD k [],
   pBits + qBits + r1Bits⟩

theorem getD_range_map {α : Type} (f : ℕ → α) (L c : ℕ) (d : α) (hc : c < L) :
    ((List.range L).map f).getD c d = f c := by
  rw [List.getD_eq_getElem _ _ (by simpa using hc), List.getElem_map, List.getElem_range]

theorem getD_map_fn {α β : Type} (g : α → β) (l : List α) (i : ℕ) (da : α)
    (hi : i < l.length) : (l.map g).getD i (g da) = g (l.getD i da) := by
  rw [List.getD_eq_getElem _ _ (by simpa using hi), List.getElem_map,
    ← List.getD_eq_getElem l da hi]

/-- The other direction of mask disjointness. -/
theorem masks_disjoint_high (k : ℕ) :
    highRankMask.getD k false = true → rank1Mask.getD k false = false := by
  intro h
  by_cases h45 : k < 45
  · have hb : ∀ m < 45, highRankMask.getD m false = true →
        rank1Mask.getD m false = false := by decide
    exact hb k h45 h
  · have hlen : rank1Mask.length = 45 := rfl
    exact List.getD_eq_default _ _ (by omega)

/-- The single-worker rank-1 path restores each mask-selected tensor exactly (sum of
one worker, divided by one). -/
theorem rankKRank1Outs_single (grads : List Mat) (k : ℕ) (hk : k < grads.length)
    (h1 : rank1Mask.getD k false = true) :
    (rankKRank1Outs [grads]).getD (countTrueBefore rank1Mask k) [] = grads.getD k [] := by
  have hct : countTrueBefore rank1Mask k < (maskFilter rank1Mask grads).length :=
    countTrueBefore_lt rank1Mask grads k hk h1
  have hbuf : sumBuffers [(TensorBuffer.pack
      ((maskFilter rank1Mask grads).map List.flatten)).buffer] =
      ((maskFilter rank1Mask grads).map List.flatten).flatten := rfl
  show ((List.range (maskFilter rank1Mask grads).length).map fun t =>
      reshapeLike ((maskFilter rank1Mask grads).getD t [])
        ((tbUnpackAux (((maskFilter rank1Mask grads).map List.flatten).map List.length)
          ((sumBuffers (([grads].map (maskFilter rank1Mask)).map fun l =>
            (TensorBuffer.pack (l.map List.flatten)).buffer)).map
              (· / (([grads] : List (List Mat)).length : ℚ)))).getD t [])).getD
      (countTrueBefore rank1Mask k) [] = grads.getD k []
  rw [getD_range_map _ _ _ _ hct]
  have hsegs : tbUnpackAux (((maskFilter rank1Mask grads).map List.flatten).map List.length)
      ((sumBuffers (([grads].map (maskFilter rank1Mask)).map fun l =>
        (TensorBuffer.pack (l.map List.flatten)).buffer)).map
          (· / (([grads] : List (List Mat)).length : ℚ))) =
      ((maskFilter rank1Mask grads).map List.flatten).map
        (List.map (· / (([grads] : List (List Mat)).length : ℚ))) := by
    exact tbUnpackAux_flatten_map _ ((maskFilter rank1Mask grads).map List.flatten)
  rw [hsegs]
  have hseg1 : (((maskFilter rank1Mask grads).map List.flatten).map
      (List.map (· / (([grads] : List (List Mat)).length : ℚ)))).getD
        (countTrueBefore rank1Mask k) [] =
      List.map (· / (([grads] : List (List Mat)).length : ℚ))
        (((maskFilter rank1Mask grads).map List.flatten).getD
          (countTrueBefore rank1Mask k) []) :=
    getD_map_fn _ _ _ [] (by simpa using hct)
  rw [hseg1]
  have hseg2 : ((maskFilter rank1Mask grads).map List.flatten).getD
      (countTrueBefore rank1Mask k) [] =
      List.flatten ((maskFilter rank1Mask grads).getD (countTrueBefore rank1Mask k) []) :=
    getD_map_fn _ _ _ [] hct
  rw [hseg2]
  have hone : (([grads] : List (List Mat)).length : ℚ) = 1 := by
    simp
  rw [hone]
  have hdone : ∀ t : Mat, reshapeLike t (t.flatten.map (· / (1 : ℚ))) = t := by
    intro t
    rw [reshapeLike_flatten_map]
    simp
  rw [hdone]
  exact maskFilter_getD [] rank1Mask grads k hk h1

/-- The single-worker high-rank path computes `P·Q'ᵗ` from the mask-selected matrix
with the exact residual. -/
theorem rankKHighResults_single (sq : ℚ → ℚ) (qO : ℕ → Mat) (grads : List Mat)
    (k : ℕ) (hk : k < grads.length) (h2 : highRankMask.getD k false = true) :
    (rankKHighResults sq qO [grads]).getD (countTrueBefore highRankMask k) ([], []) =
      (matMul (orthogonalizeM sq (1 / 100000000)
          (matMul (grads.getD k []) (qO (countTrueBefore highRankMask k))))
        (matTranspose (matMul (matTranspose (grads.getD k []))
          (orthogonalizeM sq (1 / 100000000)
            (matMul (grads.getD k []) (qO (countTrueBefore highRankMask k)))))),
       matSub (grads.getD k [])
        (matMul (orthogonalizeM sq (1 / 100000000)
            (matMul (grads.getD k []) (qO (countTrueBefore highRankMask k))))
          (matTranspose (matMul (matTranspose (grads.getD k []))
            (orthogonalizeM sq (1 / 100000000)
              (matMul (grads.getD k []) (qO (countTrueBefore highRankMask k)))))))) := by
  have hct : countTrueBefore highRankMask k < (maskFilter highRankMask grads).length :=
    countTrueBefore_lt highRankMask grads k hk h2
  show ((List.range (maskFilter highRankMask grads).length).map fun j =>
      rankKHighTensor sq (qO j)
        (([grads].map (maskFilter highRankMask)).map fun l => l.getD j [])
        ([grads] : List (List Mat)).length).getD (countTrueBefore highRankMask k)
      ([], []) = _
  rw [getD_range_map _ _ _ _ hct]
  have hM : (maskFilter highRankMask grads).getD (countTrueBefore highRankMask k) [] =
      grads.getD k [] := maskFilter_getD [] highRankMask grads k hk h2
  show rankKHighTensor sq (qO (countTrueBefore highRankMask k))
      [(maskFilter highRankMask grads).getD (countTrueBefore highRankMask k) []] 1 = _
  rw [hM]
  unfold rankKHighTensor
  have hsum1 : ∀ m : Mat, sumMats [m] = m := fun _ => rfl
  simp only [List.map_cons, List.map_nil, hsum1, List.headD_cons, Nat.cast_one]
  rw [show (1 / (1 : ℚ)) = 1 by norm_num, matScale_one]

/-- Positional form of the single-worker `grad_out`. -/
theorem rankKReduce_gradOut_single (sq : ℚ → ℚ) (selfRank : ℕ) (qO : ℕ → Mat)
    (grads outInit memInit : List Mat) (k : ℕ) (hk : k < grads.length) :
    (rankKReduce sq selfRank qO [grads] outInit memInit).gradOut.getD k [] =
      (if rank1Mask.getD k false then
        (rankKRank1Outs [grads]).getD (countTrueBefore rank1Mask k) []
      else if highRankMask.getD k false then
        ((rankKHighResults sq qO [grads]).getD (countTrueBefore highRankMask k)
          ([], [])).1
      else outInit.getD k []) := by
  show ((List.range grads.length).map _).getD k [] = _
  rw [getD_range_map _ _ _ _ hk]

/-- Positional form of the single-worker `memory_out`. -/
theorem rankKReduce_memoryOut_single (sq : ℚ → ℚ) (selfRank : ℕ) (qO : ℕ → Mat)
    (grads outInit memInit : List Mat) (k : ℕ) (hk : k < grads.length) :
    (rankKReduce sq selfRank qO [grads] outInit memInit).memoryOut.getD k [] =
      (if highRankMask.getD k false then
        ((rankKHighResults sq qO [grads]).getD (countTrueBefore highRankMask k)
          ([], [])).2
      else memInit.getD k []) := by
  show ((List.range grads.length).map _).getD k [] = _
  rw [getD_range_map _ _ _ _ hk]

/-- Claim C3 (amended): the 1-D/low-rank split of `RankKReducer.reduce` is decided by
the hardcoded 45-entry positional masks, not by each tensor's dimensionality: with one
worker, a mask-`rank1` position is copied exactly into `grad_out` (the sum over one
worker divided by `n_workers = 1`) with its memory left untouched, a mask-`high_rank`
position gets `grad_out = P·Q'ᵗ` (one power-iteration step) with the exact residual
`memory_out = M - grad_out`, and a position selected by neither mask (index ≥ 45) is
written to neither output. -/
theorem claim3_positional_split (sq : ℚ → ℚ) (selfRank : ℕ) (qO : ℕ → Mat)
    (grads outInit memInit : List Mat) (k : ℕ) (M : Mat)
    (hk : k < grads.length) (hM : grads.getD k [] = M) :
    (rank1Mask.getD k false = true →
      (rankKReduce sq selfRank qO [grads] outInit memInit).gradOut.getD k [] = M ∧
      (rankKReduce sq selfRank qO [grads] outInit memInit).memoryOut.getD k [] =
        memInit.getD k []) ∧
    (highRankMask.getD k false = true →
      (rankKReduce sq selfRank qO [grads] outInit memInit).gradOut.getD k [] =
        matMul (orthogonalizeM sq (1 / 100000000)
            (matMul M (qO (countTrueBefore highRankMask k))))
          (matTranspose (matMul (matTranspose M)
            (orthogonalizeM sq (1 / 100000000)
              (matMul M (qO (countTrueBefore highRankMask k)))))) ∧
      (rankKReduce sq selfRank qO [grads] outInit memInit).memoryOut.getD k [] =
        matSub M
          ((rankKReduce sq selfRank qO [grads] outInit memInit).gradOut.getD k [])) ∧
    (rank1Mask.getD k false = false → highRankMask.getD k false = false →
      (rankKReduce sq selfRank qO [grads] outInit memInit).gradOut.getD k [] =
        outInit.getD k [] ∧
      (rankKReduce sq selfRank qO [grads] outInit memInit).memoryOut.getD k [] =
        memInit.getD k []) := by
  have hgo := rankKReduce_gradOut_single sq selfRank qO grads outInit memInit k hk
  have hmo := rankKReduce_memoryOut_single sq selfRank qO grads outInit memInit k hk
  refine ⟨?_, ?_, ?_⟩
  · intro h1
    have h2 := masks_disjoint k h1
    rw [hgo, hmo, h1, h2]
    simp only [if_true, if_false, Bool.false_eq_true]
    rw [rankKRank1Outs_single grads k hk h1, hM]
    simp
  · intro h2
    have h1 := masks_disjoint_high k h2
    rw [hgo, hmo, h1, h2]
    simp only [if_true, if_false, Bool.false_eq_true]
    rw [rankKHighResults_single sq qO grads k hk h2, hM]
    simp
  · intro h1 h2
    rw [hgo, hmo, h1, h2]
    simp

/-- Witness for C3 at a one-tensor gradient set sitting at mask-`rank1` position 0. -/
theorem claim3_positional_split_witness :
    0 < ([[[(2 : ℚ)]]] : List Mat).length ∧
    ([[[(2 : ℚ)]]] : List Mat).getD 0 [] = [[(2 : ℚ)]] ∧
    (rank1Mask.getD 0 false = true →
      (rankKReduce (fun _ => 0) 1 (fun _ => []) [[[[(2 : ℚ)]]]] [[[(9 : ℚ)]]]
        [[[(7 : ℚ)]]]).gradOut.getD 0 [] = [[(2 : ℚ)]] ∧
      (rankKReduce (fun _ => 0) 1 (fun _ => []) [[[[(2 : ℚ)]]]] [[[(9 : ℚ)]]]
        [[[(7 : ℚ)]]]).memoryOut.getD 0 [] = ([[[(7 : ℚ)]]] : List Mat).getD 0 []) :=
  ⟨by decide, rfl,
    (claim3_positional_split (fun _ => 0) 1 (fun _ => []) [[[(2 : ℚ)]]] [[[(9 : ℚ)]]]
      [[[(7 : ℚ)]]] 0 [[(2 : ℚ)]] (by decide) rfl).1⟩

/-- Counterexample to C3 as stated: a genuinely 2-D tensor at position 0 is routed by
the positional mask through the exact rank-1 path, so its memory is left at its old
value rather than the claimed exact residual `M - grad_out`. -/
theorem claim3_counterexample :
    (rankKReduce (fun _ => 0) 1 (fun _ => []) [[[[(1 : ℚ), 2], [3, 4]]]]
      [[[(9 : ℚ), 9], [9, 9]]] [[[(7 : ℚ), 7], [7, 7]]]).memoryOut.getD 0 [] =
      [[(7 : ℚ), 7], [7, 7]] ∧
    matSub [[(1 : ℚ), 2], [3, 4]]
      ((rankKReduce (fun _ => 0) 1 (fun _ => []) [[[[(1 : ℚ), 2], [3, 4]]]]
        [[[(9 : ℚ), 9], [9, 9]]] [[[(7 : ℚ), 7], [7, 7]]]).gradOut.getD 0 []) =
      [[(0 : ℚ), 0], [0, 0]] ∧
    [[(7 : ℚ), 7], [7, 7]] ≠ [[(0 : ℚ), 0], [0, 0]] := by
  have h1 : rank1Mask.getD 0 false = true := by decide
  have hgo : (rankKReduce (fun _ => 0) 1 (fun _ => []) [[[[(1 : ℚ), 2], [3, 4]]]]
      [[[(9 : ℚ), 9], [9, 9]]] [[[(7 : ℚ), 7], [7, 7]]]).gradOut.getD 0 [] =
      [[(1 : ℚ), 2], [3, 4]] := by
    rw [rankKReduce_gradOut_single (fun _ => 0) 1 (fun _ => []) [[[(1 : ℚ), 2], [3, 4]]]
      [[[(9 : ℚ), 9], [9, 9]]] [[[(7 : ℚ), 7], [7, 7]]] 0 (by norm_num), if_pos h1]
    exact rankKRank1Outs_single [[[(1 : ℚ), 2], [3, 4]]] 0 (by norm_num) h1
  have hmo : (rankKReduce (fun _ => 0) 1 (fun _ => []) [[[[(1 : ℚ), 2], [3, 4]]]]
      [[[(9 : ℚ), 9], [9, 9]]] [[[(7 : ℚ), 7], [7, 7]]]).memoryOut.getD 0 [] =
      [[(7 : ℚ), 7], [7, 7]] := by
    rw [rankKReduce_memoryOut_single (fun _ => 0) 1 (fun _ => []) [[[(1 : ℚ), 2], [3, 4]]]
      [[[(9 : ℚ), 9], [9, 9]]] [[[(7 : ℚ), 7], [7, 7]]] 0 (by norm_num),
      if_neg (by rw [masks_disjoint 0 h1]; exact Bool.false_ne_true)]
    rfl
  refine ⟨hmo, ?_, by decide⟩
  rw [hgo]
  norm_num [matSub, List.replicate]

end SparseSketch
